import Mathlib

/-!
Verification of the VGA terminal scan-out engine
(`software/glasgow/applet/vga_terminal/__init__.py`, class `VGATerminalSubtarget`).

The design is a single-clock Migen circuit.  We embed it shallowly as a pure
step function on an explicit state record: every `Signal` becomes a `Nat` (or
`Bool`) field, and every synchronous assignment `sig.eq(expr)` becomes the
corresponding field update computed from the *previous* state (Migen
semantics: all right-hand sides of a `sync` block read the old register
values).  A `Signal(max=n)` in Migen is a register of `bits_for(n-1)` bits,
so assignments to it truncate modulo `2 ^ bits_for(n-1)`; we model this with
an explicit `% 2 ^ w`.  Memory read ports with `has_re=True` are synchronous:
`dat_r` one tick later holds the word addressed on the previous tick, which we
model with the pipeline registers `char_data`, `attr_data` and `font_dat_r`.
-/

namespace VGATerm

/-- Fuel-driven binary length: `sizeAux fuel n` is the bit length of `n`
provided `fuel ≥ n`.  Structural recursion so that the kernel can evaluate
it on literals. -/
def sizeAux : Nat → Nat → Nat
  | 0, _ => 0
  | _ + 1, 0 => 0
  | fuel + 1, n + 1 => sizeAux fuel ((n + 1) / 2) + 1

/-- Bit length of `n` (`natSize 0 = 0`, `natSize 5 = 3`, ...). -/
def natSize (n : Nat) : Nat := sizeAux n n

/-- Migen `bits_for(n)` for a nonnegative bound `n`: the number of bits of a
register able to hold `n`, with `bitsFor 0 = 1` (Migen gives the degenerate
signal one bit). -/
def bitsFor (n : Nat) : Nat := max 1 (natSize n)

theorem sizeAux_lt : ∀ fuel n, n ≤ fuel → n < 2 ^ sizeAux fuel n := by
  intro fuel
  induction fuel with
  | zero =>
    intro n h
    have hn : n = 0 := Nat.le_zero.mp h
    subst hn
    simp [sizeAux]
  | succ f ih =>
    intro n h
    match n with
    | 0 => simp [sizeAux]
    | m + 1 =>
      have hd : (m + 1) / 2 ≤ f := by omega
      have hrec := ih ((m + 1) / 2) hd
      have h2 : m + 1 ≤ 2 * ((m + 1) / 2) + 1 := by omega
      show m + 1 < 2 ^ (sizeAux f ((m + 1) / 2) + 1)
      rw [pow_succ]
      omega

/-- Any value `n` fits in `bitsFor n` bits. -/
theorem lt_two_pow_bitsFor (n : Nat) : n < 2 ^ bitsFor n :=
  lt_of_lt_of_le (sizeAux_lt n n le_rfl)
    (Nat.pow_le_pow_right (by norm_num) (le_max_right 1 (natSize n)))

theorem one_le_two_pow : ∀ w : Nat, 1 ≤ 2 ^ w := fun _ => Nat.one_le_two_pow

theorem two_le_two_pow_bitsFor (n : Nat) : 2 ≤ 2 ^ bitsFor n := by
  have h1 : 1 ≤ bitsFor n := le_max_left 1 (natSize n)
  calc 2 = 2 ^ 1 := by norm_num
    _ ≤ 2 ^ bitsFor n := Nat.pow_le_pow_right (by norm_num) h1

/-- Construction parameters of `VGATerminalSubtarget.__init__`
(`h_active`, `v_active`, `font_data`, `font_width`, `font_height`,
`blink_cyc`, `char_mem_init`, `attr_mem_init`). -/
structure Cfg where
  h_active : Nat
  v_active : Nat
  font_width : Nat
  font_height : Nat
  blink_cyc : Nat
  font_data : List Nat
  char_mem_init : List Nat
  attr_mem_init : List Nat
deriving DecidableEq

/-- Character cells per row: `h_active // font_width` (Python floor
division). -/
def cellsPerRow (c : Cfg) : Nat := c.h_active / c.font_width

/-- Character rows on screen: `v_active // font_height`. -/
def numRows (c : Cfg) : Nat := c.v_active / c.font_height

/-- Total number of character cells:
`char_mem.depth = (h_active // font_width) * (v_active // font_height)`. -/
def charDepth (c : Cfg) : Nat := cellsPerRow c * numRows c

/-- Register width of `char_ctr`/`char_l_ctr` (`Signal(max=char_mem.depth)`). -/
def wChar (c : Cfg) : Nat := bitsFor (charDepth c - 1)

/-- Register width of `font_h_ctr` (`Signal(max=font_width)`). -/
def wFontH (c : Cfg) : Nat := bitsFor (c.font_width - 1)

/-- Register width of `font_v_ctr` (`Signal(max=font_height)`). -/
def wFontV (c : Cfg) : Nat := bitsFor (c.font_height - 1)

/-- Register width of `blink_ctr` (`Signal(max=blink_cyc)`). -/
def wBlink (c : Cfg) : Nat := bitsFor (c.blink_cyc - 1)

/-- Address width of the font read port (`font_mem.depth = font_height * 256`). -/
def wFontAdr (c : Cfg) : Nat := bitsFor (c.font_height * 256 - 1)

/-- All registers of the design.  `char_ctr` is the current cell index,
`char_l_ctr` the cell index at the start of the current character row,
`font_h_ctr`/`font_v_ctr` the pixel column / scanline within the glyph;
`char_data`/`attr_data`/`font_dat_r` are the synchronous read-port outputs
(one-tick-old memory words); `font_shreg`, `attr_reg`, `undrl_reg` the
render latch; `blink_ctr`, `blink_reg` the blink oscillator. -/
structure St where
  char_ctr : Nat
  char_l_ctr : Nat
  font_v_ctr : Nat
  font_h_ctr : Nat
  char_data : Nat
  attr_data : Nat
  font_dat_r : Nat
  font_shreg : Nat
  attr_reg : Nat
  undrl_reg : Bool
  blink_ctr : Nat
  blink_reg : Bool
deriving DecidableEq

/-- Timing inputs sampled each pixel-clock tick (`vga.v_stb`, `vga.h_stb`,
`vga.v_en`, `vga.h_en`). -/
structure TIn where
  v_stb : Bool
  h_stb : Bool
  v_en : Bool
  h_en : Bool
deriving DecidableEq

/-- Synchronous memory read: Migen pads a short `init` with zeros up to
`depth`; an address beyond `depth` is undriven, modeled here as 0 (no claim
depends on that case). -/
def memRead (data : List Nat) (depth adr : Nat) : Nat :=
  if adr < depth then data.getD adr 0 else 0

/-- Bit reversal `Cat(reversed([x[n] for n in range(w)]))`: the low `w`
bits of `x` in reversed order (bit `n` of the result is bit `w-1-n` of
`x`). -/
def bitRev : Nat → Nat → Nat
  | 0, _ => 0
  | w + 1, x => (if x.testBit w then 1 else 0) + 2 * bitRev w x

theorem bitRev_lt : ∀ w x, bitRev w x < 2 ^ w := by
  intro w
  induction w with
  | zero => intro x; simp [bitRev]
  | succ v ih =>
    intro x
    have := ih x
    show (if x.testBit v then 1 else 0) + 2 * bitRev v x < 2 ^ (v + 1)
    rw [pow_succ]
    split <;> omega

/-- One pixel-clock tick of `VGATerminalSubtarget`: the whole `self.sync.pix`
block (scan position tracker, render latch, blink oscillator) together with
the synchronous read ports.  Every right-hand side reads the old state `s`. -/
def step (c : Cfg) (s : St) (i : TIn) : St :=
  { -- If(vga.v_stb, char_ctr.eq(0) ...).Elif(vga.h_stb & vga.v_en, ...)
    -- .Elif(vga.v_en & vga.h_en, If(font_h_ctr == 0, char_ctr.eq(char_ctr+1)) ...)
    char_ctr :=
      if i.v_stb = true then 0
      else if i.h_stb = true ∧ i.v_en = true then
        (if s.font_v_ctr = c.font_height - 1 then s.char_ctr else s.char_l_ctr)
      else if i.v_en = true ∧ i.h_en = true then
        (if s.font_h_ctr = 0 then (s.char_ctr + 1) % 2 ^ wChar c else s.char_ctr)
      else s.char_ctr
    char_l_ctr :=
      if i.v_stb = true then 0
      else if i.h_stb = true ∧ i.v_en = true then
        (if s.font_v_ctr = c.font_height - 1 then s.char_ctr else s.char_l_ctr)
      else s.char_l_ctr
    font_v_ctr :=
      if i.v_stb = true then 0
      else if i.h_stb = true ∧ i.v_en = true then
        (if s.font_v_ctr = c.font_height - 1 then 0
         else (s.font_v_ctr + 1) % 2 ^ wFontV c)
      else s.font_v_ctr
    font_h_ctr :=
      if i.v_stb = true then 0
      else if i.h_stb = true ∧ i.v_en = true then 0
      else if i.v_en = true ∧ i.h_en = true then
        (if s.font_h_ctr = c.font_width - 1 then 0
         else (s.font_h_ctr + 1) % 2 ^ wFontH c)
      else s.font_h_ctr
    -- synchronous read ports (re tied to 1): dat_r registers the word at
    -- the address presented on the previous tick
    char_data := memRead c.char_mem_init (charDepth c) s.char_ctr % 2 ^ 8
    attr_data := memRead c.attr_mem_init (charDepth c) s.char_ctr % 2 ^ 5
    font_dat_r :=
      memRead c.font_data (c.font_height * 256)
        ((s.char_data * c.font_height + s.font_v_ctr) % 2 ^ wFontAdr c)
        % 2 ^ c.font_width
    -- If(~vga.h_en | (font_h_ctr == font_width - 1), font_shreg.eq(font_line),
    --    attr_reg.eq(attr_data), undrl_reg.eq(font_v_ctr == font_height - 1))
    -- .Else(font_shreg.eq(font_shreg[1:]))
    font_shreg :=
      if i.h_en = false ∨ s.font_h_ctr = c.font_width - 1 then
        bitRev c.font_width s.font_dat_r
      else s.font_shreg / 2
    attr_reg :=
      if i.h_en = false ∨ s.font_h_ctr = c.font_width - 1 then s.attr_data
      else s.attr_reg
    undrl_reg :=
      if i.h_en = false ∨ s.font_h_ctr = c.font_width - 1 then
        decide (s.font_v_ctr = c.font_height - 1)
      else s.undrl_reg
    -- If(blink_ctr == blink_cyc - 1, blink_ctr.eq(0), blink_reg.eq(~blink_reg))
    -- .Else(blink_ctr.eq(blink_ctr + 1))
    blink_ctr :=
      if s.blink_ctr = c.blink_cyc - 1 then 0
      else (s.blink_ctr + 1) % 2 ^ wBlink c
    blink_reg :=
      if s.blink_ctr = c.blink_cyc - 1 then !s.blink_reg else s.blink_reg }

/-- Combinational RGB output record (`vga.pix.r/g/b`). -/
structure RGB where
  r : Bool
  g : Bool
  b : Bool
deriving DecidableEq

/-- Foreground-active predicate:
`pix_fg.eq((font_shreg[0] | (undrl_reg & attr_reg[3])) & (~attr_reg[4] | blink_reg))`. -/
def pixFg (s : St) : Bool :=
  (s.font_shreg.testBit 0 || (s.undrl_reg && s.attr_reg.testBit 3)) &&
    (!s.attr_reg.testBit 4 || s.blink_reg)

/-- The combinational pixel outputs of the current tick. -/
def outputs (s : St) : RGB :=
  { r := pixFg s && s.attr_reg.testBit 0
    g := pixFg s && s.attr_reg.testBit 1
    b := pixFg s && s.attr_reg.testBit 2 }

/-- Iterated ticks. -/
def run (c : Cfg) (s : St) (l : List TIn) : St := l.foldl (step c) s

/-- Power-on reset state: Migen registers reset to 0. -/
def st0 : St :=
  { char_ctr := 0, char_l_ctr := 0, font_v_ctr := 0, font_h_ctr := 0
    char_data := 0, attr_data := 0, font_dat_r := 0, font_shreg := 0
    attr_reg := 0, undrl_reg := false, blink_ctr := 0, blink_reg := false }

/-- Modelled from the spec: the video timing generator (the `vga_output`
applet) producing the sync/enable pulses is outside the sources; §6 of the
spec fixes its interface and §8.6 a normal frame.  A tick inside the active
region has both enables asserted and no strobe. -/
def activeTick : TIn := { v_stb := false, h_stb := false, v_en := true, h_en := true }

/-- Modelled from the spec: the horizontal-sync strobe tick between two
scanlines of the active region (`h_stb` with `v_en` still asserted, outside
the horizontally enabled region). -/
def lineTick : TIn := { v_stb := false, h_stb := true, v_en := true, h_en := false }

/-- Modelled from the spec: the vertical-sync strobe tick during vertical
blanking. -/
def vsyncTick : TIn := { v_stb := true, h_stb := false, v_en := false, h_en := false }

/-- Modelled from the spec: one active scanline of a normal frame —
`h_active` enabled pixel ticks followed by the line strobe. -/
def scanlineIns (c : Cfg) : List TIn :=
  List.replicate c.h_active activeTick ++ [lineTick]

/-- `j` consecutive active scanlines. -/
def rowIns (c : Cfg) (j : Nat) : List TIn :=
  (List.replicate j (scanlineIns c)).flatten

/-- Modelled from the spec: the timing input sequence of a normal frame —
all `v_active` active scanlines followed by the vertical-sync strobe
(blanking ticks with every gate deasserted leave the tracker unchanged and
are omitted). -/
def frameIns (c : Cfg) : List TIn := rowIns c c.v_active ++ [vsyncTick]

/-- The quantities `VGATerminalSubtarget.__init__` derives from its
parameters: the depths of the two cell memories and of the glyph memory. -/
structure Engine where
  charMemDepth : Nat
  attrMemDepth : Nat
  fontMemDepth : Nat
deriving DecidableEq

/-- Construction of the engine (`__init__`, lines 13–96).  The constructor
performs no validation of its own; the failure paths are those of Python
and Migen, in source order: the floor divisions of line 13 raise
`ZeroDivisionError` when a glyph dimension is zero; `Memory.get_port`
(line 19) builds `adr = Signal(max=char_mem.depth)`, and Migen
`Signal.__init__` (`max -= 1; assert min <= max`) raises `AssertionError`
when `char_mem.depth = 0`, i.e. when the active area holds less than one
glyph (the later `char_ctr = Signal(max=char_mem.depth)` would assert the
same way); and `blink_ctr = Signal(max=blink_cyc)` (line 87) likewise
raises `AssertionError` when `blink_cyc = 0`.  With nonzero glyph
dimensions the remaining bounded signals (`Signal(max=font_width)`,
`Signal(max=font_height)`, `Signal(max=font_height * 256)`) have positive
bounds and cannot assert.  Every other configuration — including
malformed ones such as active sizes that are not multiples of the glyph
size, or init data of mismatched length — is accepted. -/
def construct (c : Cfg) : Except String Engine :=
  if c.font_width = 0 ∨ c.font_height = 0 then
    Except.error "ZeroDivisionError"
  else if charDepth c = 0 then
    Except.error "AssertionError"
  else if c.blink_cyc = 0 then
    Except.error "AssertionError"
  else
    Except.ok
      { charMemDepth := charDepth c
        attrMemDepth := charDepth c
        fontMemDepth := c.font_height * 256 }

/-- A generic configuration used for witnesses: an 8×16 font on a 16×32
active area (2 cells per row, 2 rows, 4 cells). -/
def cfgW : Cfg :=
  { h_active := 16, v_active := 32, font_width := 8, font_height := 16
    blink_cyc := 4, font_data := [], char_mem_init := [], attr_mem_init := [] }

theorem bitRev_testBit_zero (w x : Nat) (hw : 1 ≤ w) :
    (bitRev w x).testBit 0 = x.testBit (w - 1) := by
  match w, hw with
  | v + 1, _ =>
    show ((if x.testBit v then 1 else 0) + 2 * bitRev v x).testBit 0 = x.testBit v
    rw [Nat.testBit_zero]
    by_cases h : x.testBit v
    · simp [h, Nat.add_mul_mod_self_left]
    · simp [h, Nat.mul_mod_right]

/-- Claim C2: on a tick with `h_stb` and `v_en` asserted and `v_stb` not
asserted (line advance), if `row_in_glyph` is at its last scanline the
row-start index is committed to the current cell index and the scanline
counter resets, otherwise the cell index rolls back to the row start and the
scanline counter increments; the glyph column resets to 0 in both cases. -/
theorem claim_c2 (c : Cfg) (s : St) (i : TIn)
    (hhs : i.h_stb = true) (hve : i.v_en = true) (hvs : i.v_stb = false)
    (hv : s.font_v_ctr < c.font_height) :
    (step c s i).font_h_ctr = 0
    ∧ (s.font_v_ctr = c.font_height - 1 →
        (step c s i).char_l_ctr = s.char_ctr ∧ (step c s i).font_v_ctr = 0)
    ∧ (s.font_v_ctr ≠ c.font_height - 1 →
        (step c s i).char_ctr = s.char_l_ctr
        ∧ (step c s i).font_v_ctr = s.font_v_ctr + 1) := by
  refine ⟨by simp [step, hhs, hve, hvs], fun h => by simp [step, hhs, hve, hvs, h], fun h => ?_⟩
  have hb := lt_two_pow_bitsFor (c.font_height - 1)
  have hlt : s.font_v_ctr + 1 < 2 ^ wFontV c := by unfold wFontV; omega
  simp [step, hhs, hve, hvs, h, Nat.mod_eq_of_lt hlt]

theorem claim_c2_wit :
    (lineTick.h_stb = true ∧ lineTick.v_en = true ∧ lineTick.v_stb = false
      ∧ ({ st0 with font_v_ctr := 3 } : St).font_v_ctr < cfgW.font_height)
    ∧ ((step cfgW { st0 with font_v_ctr := 3 } lineTick).font_h_ctr = 0
      ∧ (({ st0 with font_v_ctr := 3 } : St).font_v_ctr = cfgW.font_height - 1 →
          (step cfgW { st0 with font_v_ctr := 3 } lineTick).char_l_ctr
            = ({ st0 with font_v_ctr := 3 } : St).char_ctr
          ∧ (step cfgW { st0 with font_v_ctr := 3 } lineTick).font_v_ctr = 0)
      ∧ (({ st0 with font_v_ctr := 3 } : St).font_v_ctr ≠ cfgW.font_height - 1 →
          (step cfgW { st0 with font_v_ctr := 3 } lineTick).char_ctr
            = ({ st0 with font_v_ctr := 3 } : St).char_l_ctr
          ∧ (step cfgW { st0 with font_v_ctr := 3 } lineTick).font_v_ctr
            = ({ st0 with font_v_ctr := 3 } : St).font_v_ctr + 1)) :=
  ⟨⟨rfl, rfl, rfl, by decide⟩,
    claim_c2 cfgW { st0 with font_v_ctr := 3 } lineTick rfl rfl rfl (by decide)⟩

/-- Claim C3: asserting `v_stb` on any tick, from any state and with any
values of the other timing inputs, zeroes all four scan counters on the next
tick; as the outermost branch of the priority chain it overrides the
line-advance and pixel-advance transitions. -/
theorem claim_c3 (c : Cfg) (s : St) (i : TIn) (hvs : i.v_stb = true) :
    (step c s i).char_ctr = 0 ∧ (step c s i).char_l_ctr = 0
    ∧ (step c s i).font_v_ctr = 0 ∧ (step c s i).font_h_ctr = 0 := by
  simp [step, hvs]

theorem claim_c3_wit :
    ((⟨true, true, true, true⟩ : TIn).v_stb = true)
    ∧ ((step cfgW { st0 with char_ctr := 3, char_l_ctr := 2, font_v_ctr := 7, font_h_ctr := 5 }
          ⟨true, true, true, true⟩).char_ctr = 0
      ∧ (step cfgW { st0 with char_ctr := 3, char_l_ctr := 2, font_v_ctr := 7, font_h_ctr := 5 }
          ⟨true, true, true, true⟩).char_l_ctr = 0
      ∧ (step cfgW { st0 with char_ctr := 3, char_l_ctr := 2, font_v_ctr := 7, font_h_ctr := 5 }
          ⟨true, true, true, true⟩).font_v_ctr = 0
      ∧ (step cfgW { st0 with char_ctr := 3, char_l_ctr := 2, font_v_ctr := 7, font_h_ctr := 5 }
          ⟨true, true, true, true⟩).font_h_ctr = 0) :=
  ⟨rfl,
    claim_c3 cfgW { st0 with char_ctr := 3, char_l_ctr := 2, font_v_ctr := 7, font_h_ctr := 5 }
      ⟨true, true, true, true⟩ rfl⟩

/-- Claim C4: on a pixel-advance tick (`v_en` and `h_en` asserted, neither
strobe asserted) the cell index advances by one — as a `wChar`-bit register,
hence modulo `2 ^ wChar`, which is the identity whenever the incremented
value still fits — exactly when the glyph column is 0, and the glyph column
increments, wrapping to 0 at `font_width - 1`. -/
theorem claim_c4 (c : Cfg) (s : St) (i : TIn)
    (hvs : i.v_stb = false) (hhs : i.h_stb = false)
    (hve : i.v_en = true) (hhe : i.h_en = true)
    (hh : s.font_h_ctr < c.font_width) :
    ((s.font_h_ctr = 0 → (step c s i).char_ctr = (s.char_ctr + 1) % 2 ^ wChar c)
      ∧ (s.font_h_ctr = 0 → s.char_ctr + 1 < 2 ^ wChar c →
          (step c s i).char_ctr = s.char_ctr + 1)
      ∧ (s.font_h_ctr ≠ 0 → (step c s i).char_ctr = s.char_ctr))
    ∧ (step c s i).font_h_ctr
        = (if s.font_h_ctr = c.font_width - 1 then 0 else s.font_h_ctr + 1) := by
  refine ⟨⟨fun h => by simp [step, hvs, hhs, hve, hhe, h],
    fun h hfit => by simp [step, hvs, hhs, hve, hhe, h, Nat.mod_eq_of_lt hfit],
    fun h => by simp [step, hvs, hhs, hve, hhe, h]⟩, ?_⟩
  by_cases h : s.font_h_ctr = c.font_width - 1
  · simp [step, hvs, hhs, hve, hhe, h]
  · have hb := lt_two_pow_bitsFor (c.font_width - 1)
    have hlt : s.font_h_ctr + 1 < 2 ^ wFontH c := by unfold wFontH; omega
    simp [step, hvs, hhs, hve, hhe, h, Nat.mod_eq_of_lt hlt]

theorem claim_c4_wit :
    (activeTick.v_stb = false ∧ activeTick.h_stb = false
      ∧ activeTick.v_en = true ∧ activeTick.h_en = true
      ∧ ({ st0 with char_ctr := 2 } : St).font_h_ctr < cfgW.font_width)
    ∧ (((({ st0 with char_ctr := 2 } : St).font_h_ctr = 0 →
          (step cfgW { st0 with char_ctr := 2 } activeTick).char_ctr
            = (({ st0 with char_ctr := 2 } : St).char_ctr + 1) % 2 ^ wChar cfgW)
      ∧ (({ st0 with char_ctr := 2 } : St).font_h_ctr = 0 →
          ({ st0 with char_ctr := 2 } : St).char_ctr + 1 < 2 ^ wChar cfgW →
          (step cfgW { st0 with char_ctr := 2 } activeTick).char_ctr
            = ({ st0 with char_ctr := 2 } : St).char_ctr + 1)
      ∧ (({ st0 with char_ctr := 2 } : St).font_h_ctr ≠ 0 →
          (step cfgW { st0 with char_ctr := 2 } activeTick).char_ctr
            = ({ st0 with char_ctr := 2 } : St).char_ctr))
    ∧ (step cfgW { st0 with char_ctr := 2 } activeTick).font_h_ctr
        = (if ({ st0 with char_ctr := 2 } : St).font_h_ctr = cfgW.font_width - 1 then 0
           else ({ st0 with char_ctr := 2 } : St).font_h_ctr + 1)) :=
  ⟨⟨rfl, rfl, rfl, rfl, by decide⟩,
    claim_c4 cfgW { st0 with char_ctr := 2 } activeTick rfl rfl rfl rfl (by decide)⟩

/-- Claim C5: on every tick exactly one of the two render-latch updates
fires.  When `h_en` is inactive or the glyph column is at `font_width - 1`,
the shift register loads the fetched glyph row bit-reversed (the leftmost,
most significant glyph bit lands at position 0), the attribute register
loads the fetched attribute, and `undrl_reg` loads whether the current
scanline is the last of the glyph; on all other ticks the shift register
shifts one position (the next bit appears at position 0) and the latched
attribute and underline flag are unchanged. -/
theorem claim_c5 (c : Cfg) (s : St) (i : TIn) :
    ((i.h_en = false ∨ s.font_h_ctr = c.font_width - 1) →
      (step c s i).font_shreg = bitRev c.font_width s.font_dat_r
      ∧ (1 ≤ c.font_width →
          (step c s i).font_shreg.testBit 0 = s.font_dat_r.testBit (c.font_width - 1))
      ∧ (step c s i).attr_reg = s.attr_data
      ∧ (step c s i).undrl_reg = decide (s.font_v_ctr = c.font_height - 1))
    ∧ (¬(i.h_en = false ∨ s.font_h_ctr = c.font_width - 1) →
      (step c s i).font_shreg = s.font_shreg / 2
      ∧ (step c s i).font_shreg.testBit 0 = s.font_shreg.testBit 1
      ∧ (step c s i).attr_reg = s.attr_reg
      ∧ (step c s i).undrl_reg = s.undrl_reg) := by
  constructor
  · intro h
    refine ⟨by simp [step, h], fun hw => ?_, by simp [step, h], by simp [step, h]⟩
    have : (step c s i).font_shreg = bitRev c.font_width s.font_dat_r := by simp [step, h]
    rw [this, bitRev_testBit_zero _ _ hw]
  · intro h
    have hs : (step c s i).font_shreg = s.font_shreg / 2 := by simp [step, h]
    refine ⟨hs, ?_, by simp [step, h], by simp [step, h]⟩
    rw [hs]
    exact (Nat.testBit_succ s.font_shreg 0).symm

theorem claim_c5_wit :
    (activeTick.h_en = false ∨ ({ st0 with font_h_ctr := 7, font_dat_r := 181 } : St).font_h_ctr
        = cfgW.font_width - 1)
    ∧ ((step cfgW { st0 with font_h_ctr := 7, font_dat_r := 181 } activeTick).font_shreg
        = bitRev cfgW.font_width ({ st0 with font_h_ctr := 7, font_dat_r := 181 } : St).font_dat_r
      ∧ (1 ≤ cfgW.font_width →
          (step cfgW { st0 with font_h_ctr := 7, font_dat_r := 181 } activeTick).font_shreg.testBit 0
            = ({ st0 with font_h_ctr := 7, font_dat_r := 181 } : St).font_dat_r.testBit
                (cfgW.font_width - 1))
      ∧ (step cfgW { st0 with font_h_ctr := 7, font_dat_r := 181 } activeTick).attr_reg
          = ({ st0 with font_h_ctr := 7, font_dat_r := 181 } : St).attr_data
      ∧ (step cfgW { st0 with font_h_ctr := 7, font_dat_r := 181 } activeTick).undrl_reg
          = decide (({ st0 with font_h_ctr := 7, font_dat_r := 181 } : St).font_v_ctr
              = cfgW.font_height - 1)) :=
  ⟨by decide,
    (claim_c5 cfgW { st0 with font_h_ctr := 7, font_dat_r := 181 } activeTick).1 (by decide)⟩

/-- Claim C6: the compositor computes
`fg = (bit0 OR (underline_active AND attr.underline)) AND (NOT attr.blink OR phase)`
and gates each latched color bit with it; the two truth-table rows of the
spec hold: attribute `0b01101` (color 0b101, underline, no blink) with
foreground bit set and the underline row active gives magenta, and a
blinking attribute in the off phase gives black regardless of the
foreground bit. -/
theorem claim_c6 :
    (∀ s : St,
      (outputs s).r = (((s.font_shreg.testBit 0 || (s.undrl_reg && s.attr_reg.testBit 3))
          && (!s.attr_reg.testBit 4 || s.blink_reg)) && s.attr_reg.testBit 0)
      ∧ (outputs s).g = (((s.font_shreg.testBit 0 || (s.undrl_reg && s.attr_reg.testBit 3))
          && (!s.attr_reg.testBit 4 || s.blink_reg)) && s.attr_reg.testBit 1)
      ∧ (outputs s).b = (((s.font_shreg.testBit 0 || (s.undrl_reg && s.attr_reg.testBit 3))
          && (!s.attr_reg.testBit 4 || s.blink_reg)) && s.attr_reg.testBit 2))
    ∧ outputs { st0 with attr_reg := 13, font_shreg := 1, undrl_reg := true }
        = ⟨true, false, true⟩
    ∧ (∀ (x : Nat) (u : Bool),
        outputs { st0 with attr_reg := 29, font_shreg := x, undrl_reg := u, blink_reg := false }
          = ⟨false, false, false⟩) := by
  refine ⟨fun s => ⟨rfl, rfl, rfl⟩, by decide, fun x u => ?_⟩
  have hb : (29 : Nat).testBit 4 = true := by decide
  simp [outputs, pixFg, hb]

/-- Claim C10: a single tick, from any state and under any inputs, preserves
each of the three counter bounds `column_in_glyph < glyph_width`,
`row_in_glyph < glyph_height` and `blink_ctr < blink_half_period`: every
update either resets the counter to zero or increments a value strictly
below the bound minus one. -/
theorem claim_c10 (c : Cfg) (s : St) (i : TIn) :
    (s.font_h_ctr < c.font_width → (step c s i).font_h_ctr < c.font_width)
    ∧ (s.font_v_ctr < c.font_height → (step c s i).font_v_ctr < c.font_height)
    ∧ (s.blink_ctr < c.blink_cyc → (step c s i).blink_ctr < c.blink_cyc) := by
  refine ⟨fun h => ?_, fun h => ?_, fun h => ?_⟩
  · have hm := Nat.mod_le (s.font_h_ctr + 1) (2 ^ wFontH c)
    simp only [step]
    split_ifs <;> omega
  · have hm := Nat.mod_le (s.font_v_ctr + 1) (2 ^ wFontV c)
    simp only [step]
    split_ifs <;> omega
  · have hm := Nat.mod_le (s.blink_ctr + 1) (2 ^ wBlink c)
    simp only [step]
    split_ifs <;> omega

theorem claim_c10_wit :
    (({ st0 with font_h_ctr := 7, font_v_ctr := 15, blink_ctr := 3 } : St).font_h_ctr
        < cfgW.font_width
      ∧ ({ st0 with font_h_ctr := 7, font_v_ctr := 15, blink_ctr := 3 } : St).font_v_ctr
        < cfgW.font_height
      ∧ ({ st0 with font_h_ctr := 7, font_v_ctr := 15, blink_ctr := 3 } : St).blink_ctr
        < cfgW.blink_cyc)
    ∧ ((step cfgW { st0 with font_h_ctr := 7, font_v_ctr := 15, blink_ctr := 3 }
          activeTick).font_h_ctr < cfgW.font_width
      ∧ (step cfgW { st0 with font_h_ctr := 7, font_v_ctr := 15, blink_ctr := 3 }
          activeTick).font_v_ctr < cfgW.font_height
      ∧ (step cfgW { st0 with font_h_ctr := 7, font_v_ctr := 15, blink_ctr := 3 }
          activeTick).blink_ctr < cfgW.blink_cyc) :=
  ⟨⟨by decide, by decide, by decide⟩,
    ⟨(claim_c10 cfgW { st0 with font_h_ctr := 7, font_v_ctr := 15, blink_ctr := 3 }
        activeTick).1 (by decide),
      (claim_c10 cfgW { st0 with font_h_ctr := 7, font_v_ctr := 15, blink_ctr := 3 }
        activeTick).2.1 (by decide),
      (claim_c10 cfgW { st0 with font_h_ctr := 7, font_v_ctr := 15, blink_ctr := 3 }
        activeTick).2.2 (by decide)⟩⟩

theorem run_nil (c : Cfg) (s : St) : run c s [] = s := rfl

theorem run_cons (c : Cfg) (s : St) (i : TIn) (l : List TIn) :
    run c s (i :: l) = run c (step c s i) l := rfl

theorem run_append (c : Cfg) (s : St) (l l' : List TIn) :
    run c s (l ++ l') = run c (run c s l) l' := List.foldl_append _ _ _ _

/-- Counting lemma for the blink oscillator: as long as the counter stays
below `blink_cyc`, running any inputs counts the ticks, and the phase flips
exactly when the counter reaches the period. -/
theorem blinkRun (c : Cfg) :
    ∀ (l : List TIn) (s : St), s.blink_ctr < c.blink_cyc →
      s.blink_ctr + l.length ≤ c.blink_cyc →
      (run c s l).blink_ctr = (s.blink_ctr + l.length) % c.blink_cyc
      ∧ (run c s l).blink_reg
          = (if s.blink_ctr + l.length = c.blink_cyc then !s.blink_reg else s.blink_reg) := by
  intro l
  induction l with
  | nil =>
    intro s h hle
    simp only [run_nil, List.length_nil, Nat.add_zero]
    constructor
    · exact (Nat.mod_eq_of_lt h).symm
    · rw [if_neg (Nat.ne_of_lt h)]
  | cons i rest ih =>
    intro s h hle
    rw [run_cons]
    by_cases hlast : s.blink_ctr = c.blink_cyc - 1
    · have hcyc : 1 ≤ c.blink_cyc := by omega
      have hlen : rest.length = 0 := by simp only [List.length_cons] at hle; omega
      have hnil : rest = [] := List.length_eq_zero.mp hlen
      subst hnil
      have h0 : (step c s i).blink_ctr = 0 := by simp [step, hlast]
      have h1 : (step c s i).blink_reg = !s.blink_reg := by simp [step, hlast]
      simp only [run_nil, List.length_cons, hlen, Nat.zero_add, h0, h1]
      constructor
      · have : s.blink_ctr + 1 = c.blink_cyc := by omega
        rw [this, Nat.mod_self]
      · rw [if_pos (by omega)]
    · have hb := lt_two_pow_bitsFor (c.blink_cyc - 1)
      have hfit : s.blink_ctr + 1 < 2 ^ wBlink c := by unfold wBlink; omega
      have h0 : (step c s i).blink_ctr = s.blink_ctr + 1 := by
        simp [step, hlast, Nat.mod_eq_of_lt hfit]
      have h1 : (step c s i).blink_reg = s.blink_reg := by simp [step, hlast]
      have hlt : (step c s i).blink_ctr < c.blink_cyc := by omega
      have hle2 : (step c s i).blink_ctr + rest.length ≤ c.blink_cyc := by
        simp only [List.length_cons] at hle; omega
      have := ih (step c s i) hlt hle2
      rw [h0, h1] at this
      simp only [List.length_cons]
      constructor
      · rw [this.1]; ring_nf
      · rw [this.2]
        by_cases hq : s.blink_ctr + 1 + rest.length = c.blink_cyc
        · rw [if_pos hq, if_pos (by omega)]
        · rw [if_neg hq, if_neg (by omega)]

/-- Claim C7: the blink counter runs freely from 0 to `blink_cyc - 1`; at
`blink_cyc - 1` it resets to 0 and the phase inverts, otherwise it
increments; the blink state ignores every timing input in every state, and
starting from a zeroed counter the phase is unchanged for any run shorter
than the period and inverted (with the counter back at 0) after exactly
`blink_cyc` ticks. -/
theorem claim_c7 (c : Cfg) (s : St) (hpos : 1 ≤ c.blink_cyc)
    (hlt : s.blink_ctr < c.blink_cyc) :
    (∀ i : TIn,
      (s.blink_ctr = c.blink_cyc - 1 →
        (step c s i).blink_ctr = 0 ∧ (step c s i).blink_reg = !s.blink_reg)
      ∧ (s.blink_ctr ≠ c.blink_cyc - 1 →
        (step c s i).blink_ctr = s.blink_ctr + 1 ∧ (step c s i).blink_reg = s.blink_reg))
    ∧ (∀ i i' : TIn,
        (step c s i).blink_ctr = (step c s i').blink_ctr
        ∧ (step c s i).blink_reg = (step c s i').blink_reg)
    ∧ (s.blink_ctr = 0 → ∀ ins : List TIn,
        (ins.length < c.blink_cyc →
          (run c s ins).blink_ctr = ins.length ∧ (run c s ins).blink_reg = s.blink_reg)
        ∧ (ins.length = c.blink_cyc →
          (run c s ins).blink_ctr = 0 ∧ (run c s ins).blink_reg = !s.blink_reg)) := by
  refine ⟨fun i => ⟨fun h => by simp [step, h], fun h => ?_⟩, fun i i' => ⟨rfl, rfl⟩,
    fun h0 ins => ⟨fun hshort => ?_, fun hexact => ?_⟩⟩
  · have hb := lt_two_pow_bitsFor (c.blink_cyc - 1)
    have hfit : s.blink_ctr + 1 < 2 ^ wBlink c := by unfold wBlink; omega
    exact ⟨by simp [step, h, Nat.mod_eq_of_lt hfit], by simp [step, h]⟩
  · have := blinkRun c ins s hlt (by omega)
    rw [h0] at this
    simp only [Nat.zero_add] at this
    exact ⟨by rw [this.1, Nat.mod_eq_of_lt hshort], by rw [this.2, if_neg (Nat.ne_of_lt hshort)]⟩
  · have := blinkRun c ins s hlt (by omega)
    rw [h0] at this
    simp only [Nat.zero_add] at this
    exact ⟨by rw [this.1, hexact, Nat.mod_self], by rw [this.2, if_pos hexact]⟩

theorem claim_c7_wit :
    (1 ≤ cfgW.blink_cyc ∧ st0.blink_ctr < cfgW.blink_cyc)
    ∧ ((∀ i : TIn,
        (st0.blink_ctr = cfgW.blink_cyc - 1 →
          (step cfgW st0 i).blink_ctr = 0 ∧ (step cfgW st0 i).blink_reg = !st0.blink_reg)
        ∧ (st0.blink_ctr ≠ cfgW.blink_cyc - 1 →
          (step cfgW st0 i).blink_ctr = st0.blink_ctr + 1
          ∧ (step cfgW st0 i).blink_reg = st0.blink_reg))
      ∧ (∀ i i' : TIn,
          (step cfgW st0 i).blink_ctr = (step cfgW st0 i').blink_ctr
          ∧ (step cfgW st0 i).blink_reg = (step cfgW st0 i').blink_reg)
      ∧ (st0.blink_ctr = 0 → ∀ ins : List TIn,
          (ins.length < cfgW.blink_cyc →
            (run cfgW st0 ins).blink_ctr = ins.length
            ∧ (run cfgW st0 ins).blink_reg = st0.blink_reg)
          ∧ (ins.length = cfgW.blink_cyc →
            (run cfgW st0 ins).blink_ctr = 0
            ∧ (run cfgW st0 ins).blink_reg = !st0.blink_reg))) :=
  ⟨⟨by decide, by decide⟩, claim_c7 cfgW st0 (by decide) (by decide)⟩

/-- Number of cell-index increments in the first `p` ticks of a scanline:
the counter increments at the ticks whose index is a multiple of `g`
(glyph column 0), so among ticks `0, …, p-1` there are `⌈p / g⌉` of them. -/
def ceilD (p g : Nat) : Nat := p / g + if g ∣ p then 0 else 1

theorem ceilD_zero (g : Nat) : ceilD 0 g = 0 := by
  simp [ceilD]

theorem ceilD_succ_dvd (p g : Nat) (hg : 1 ≤ g) (hd : g ∣ p) :
    ceilD (p + 1) g = ceilD p g + 1 := by
  rcases Nat.eq_or_lt_of_le hg with h1 | h2
  · have hg1 : g = 1 := h1.symm
    subst hg1
    simp [ceilD]
  · have hnd : ¬ g ∣ p + 1 := by
      intro hc
      have hone : g ∣ 1 := by
        have := Nat.dvd_sub' hc hd
        simpa using this
      have := Nat.le_of_dvd (by norm_num) hone
      omega
    simp [ceilD, Nat.succ_div, hd, hnd]

theorem ceilD_succ_not_dvd (p g : Nat) (hd : ¬ g ∣ p) :
    ceilD (p + 1) g = ceilD p g := by
  by_cases hd2 : g ∣ p + 1
  · simp [ceilD, Nat.succ_div, hd, hd2]
  · simp [ceilD, Nat.succ_div, hd, hd2]

theorem ceilD_mul (k g : Nat) (hg : 1 ≤ g) : ceilD (k * g) g = k := by
  have hdv : g ∣ k * g := dvd_mul_left g k
  simp [ceilD, hdv, Nat.mul_div_cancel _ hg]

theorem ceilD_le (p g m : Nat) (hg : 1 ≤ g) (h : p ≤ m * g) : ceilD p g ≤ m := by
  by_cases hd : g ∣ p
  · have : p / g ≤ m * g / g := Nat.div_le_div_right h
    rw [Nat.mul_div_cancel _ hg] at this
    simp [ceilD, hd]
    omega
  · have hne : p ≠ m * g := by
      intro he
      exact hd (he ▸ dvd_mul_left g m)
    have hlt : p < m * g := by omega
    have : p / g < m := (Nat.div_lt_iff_lt_mul hg).mpr hlt
    simp [ceilD, hd]
    omega

/-- Successor of a modulus: wraps to 0 exactly at `g - 1`. -/
theorem mod_succ_char (p g : Nat) (hg : 1 ≤ g) :
    (p + 1) % g = (if p % g = g - 1 then 0 else p % g + 1) := by
  have h1 : (p % g + 1) % g = (p + 1) % g := Nat.mod_add_mod p g 1
  rw [← h1]
  have hlt : p % g < g := Nat.mod_lt p (by omega)
  by_cases h : p % g = g - 1
  · rw [if_pos h, h, Nat.sub_add_cancel hg, Nat.mod_self]
  · rw [if_neg h, Nat.mod_eq_of_lt (by omega)]

/-- Running `p` enabled pixel ticks from a glyph-column-0 state: the cell
index grows by one per begun glyph (modulo the register width), the
row-start index and scanline counter are untouched, and the glyph column is
`p % font_width`. -/
theorem pixRun (c : Cfg) (hgw : 1 ≤ c.font_width) :
    ∀ (p : Nat) (s : St), s.font_h_ctr = 0 → s.char_ctr < 2 ^ wChar c →
      (run c s (List.replicate p activeTick)).char_ctr
          = (s.char_ctr + ceilD p c.font_width) % 2 ^ wChar c
      ∧ (run c s (List.replicate p activeTick)).char_l_ctr = s.char_l_ctr
      ∧ (run c s (List.replicate p activeTick)).font_v_ctr = s.font_v_ctr
      ∧ (run c s (List.replicate p activeTick)).font_h_ctr = p % c.font_width := by
  intro p
  induction p with
  | zero =>
    intro s h0 hcc
    simp [run_nil, ceilD_zero, Nat.mod_eq_of_lt hcc, h0]
  | succ p ih =>
    intro s h0 hcc
    rw [List.replicate_succ' p activeTick, run_append]
    obtain ⟨hc, hl, hv, hh⟩ := ih s h0 hcc
    set t := run c s (List.replicate p activeTick) with ht
    have hstep : run c t [activeTick] = step c t activeTick := rfl
    rw [hstep]
    have hcstep : (step c t activeTick).char_ctr
        = (if t.font_h_ctr = 0 then (t.char_ctr + 1) % 2 ^ wChar c else t.char_ctr) := by
      simp [step, activeTick]
    have hlstep : (step c t activeTick).char_l_ctr = t.char_l_ctr := by
      simp [step, activeTick]
    have hvstep : (step c t activeTick).font_v_ctr = t.font_v_ctr := by
      simp [step, activeTick]
    have hhstep : (step c t activeTick).font_h_ctr
        = (if t.font_h_ctr = c.font_width - 1 then 0
           else (t.font_h_ctr + 1) % 2 ^ wFontH c) := by
      simp [step, activeTick]
    refine ⟨?_, by rw [hlstep, hl], by rw [hvstep, hv], ?_⟩
    · rw [hcstep, hh, hc]
      by_cases hdv : c.font_width ∣ p
      · have hz : p % c.font_width = 0 := Nat.dvd_iff_mod_eq_zero.mp hdv
        rw [if_pos hz, Nat.mod_add_mod, ceilD_succ_dvd p _ hgw hdv, Nat.add_assoc]
      · have hnz : p % c.font_width ≠ 0 := fun h =>
          hdv (Nat.dvd_iff_mod_eq_zero.mpr h)
        rw [if_neg hnz, ceilD_succ_not_dvd p _ hdv]
    · rw [hhstep, hh, mod_succ_char p _ hgw]
      by_cases hlast : p % c.font_width = c.font_width - 1
      · rw [if_pos hlast, if_pos hlast]
      · rw [if_neg hlast, if_neg hlast]
        have hb := lt_two_pow_bitsFor (c.font_width - 1)
        have hm : p % c.font_width < c.font_width := Nat.mod_lt p (by omega)
        have : p % c.font_width + 1 < 2 ^ wFontH c := by unfold wFontH; omega
        exact Nat.mod_eq_of_lt this

/-- One full scanline (all `h_active` pixel ticks, then the line strobe)
from a scanline-start state. -/
theorem scanRun (c : Cfg) (hgw : 1 ≤ c.font_width) (hdvd : c.font_width ∣ c.h_active)
    (s : St) (h0 : s.font_h_ctr = 0) (hcc : s.char_ctr < 2 ^ wChar c) :
    (s.font_v_ctr = c.font_height - 1 →
      (run c s (scanlineIns c)).char_ctr = (s.char_ctr + cellsPerRow c) % 2 ^ wChar c
      ∧ (run c s (scanlineIns c)).char_l_ctr = (s.char_ctr + cellsPerRow c) % 2 ^ wChar c
      ∧ (run c s (scanlineIns c)).font_v_ctr = 0
      ∧ (run c s (scanlineIns c)).font_h_ctr = 0)
    ∧ (s.font_v_ctr ≠ c.font_height - 1 → s.font_v_ctr + 1 < 2 ^ wFontV c →
      (run c s (scanlineIns c)).char_ctr = s.char_l_ctr
      ∧ (run c s (scanlineIns c)).char_l_ctr = s.char_l_ctr
      ∧ (run c s (scanlineIns c)).font_v_ctr = s.font_v_ctr + 1
      ∧ (run c s (scanlineIns c)).font_h_ctr = 0) := by
  have hW : cellsPerRow c * c.font_width = c.h_active := Nat.div_mul_cancel hdvd
  have hrw : run c s (scanlineIns c)
      = step c (run c s (List.replicate c.h_active activeTick)) lineTick := by
    unfold scanlineIns
    rw [run_append]
    rfl
  obtain ⟨hc, hl, hv, hh⟩ := pixRun c hgw c.h_active s h0 hcc
  have hceil : ceilD c.h_active c.font_width = cellsPerRow c := by
    rw [← hW, ceilD_mul _ _ hgw]
  have hz : c.h_active % c.font_width = 0 := Nat.dvd_iff_mod_eq_zero.mp hdvd
  rw [hceil] at hc
  rw [hz] at hh
  set u := run c s (List.replicate c.h_active activeTick) with hu
  constructor
  · intro hlast
    have hulast : u.font_v_ctr = c.font_height - 1 := hv.trans hlast
    rw [hrw]
    refine ⟨?_, ?_, ?_, ?_⟩ <;> simp [step, lineTick, hulast, hc, hl]
  · intro hne hfit
    have hune : u.font_v_ctr ≠ c.font_height - 1 := by rw [hv]; exact hne
    rw [hrw]
    refine ⟨?_, ?_, ?_, ?_⟩ <;>
      simp [step, lineTick, hune, hne, hc, hl, hv, Nat.mod_eq_of_lt hfit]

theorem rowIns_zero (c : Cfg) : rowIns c 0 = [] := rfl

theorem rowIns_succ (c : Cfg) (j : Nat) :
    rowIns c (j + 1) = rowIns c j ++ scanlineIns c := by
  unfold rowIns
  rw [List.replicate_succ' j (scanlineIns c), List.flatten_append]
  simp

/-- Scanline-start invariant of a row group entered at cell index `R`: at
the start of each of the `font_height` scanlines both cell counters are back
at `R`, the scanline counter holds the scanline number and the glyph column
is 0. -/
theorem rowStarts (c : Cfg) (hgw : 1 ≤ c.font_width) (hdvd : c.font_width ∣ c.h_active)
    (s : St) (R : Nat) (hc : s.char_ctr = R) (hl : s.char_l_ctr = R)
    (hv : s.font_v_ctr = 0) (hh : s.font_h_ctr = 0) (hR : R < 2 ^ wChar c) :
    ∀ j, j < c.font_height →
      (run c s (rowIns c j)).char_ctr = R
      ∧ (run c s (rowIns c j)).char_l_ctr = R
      ∧ (run c s (rowIns c j)).font_v_ctr = j
      ∧ (run c s (rowIns c j)).font_h_ctr = 0 := by
  intro j
  induction j with
  | zero =>
    intro _
    simp [rowIns_zero, run_nil, hc, hl, hv, hh]
  | succ j ih =>
    intro hj
    have hjlt : j < c.font_height := by omega
    obtain ⟨pc, pl, pv, ph⟩ := ih hjlt
    rw [rowIns_succ, run_append]
    have hb := lt_two_pow_bitsFor (c.font_height - 1)
    have hne : (run c s (rowIns c j)).font_v_ctr ≠ c.font_height - 1 := by
      rw [pv]; omega
    have hfit : (run c s (rowIns c j)).font_v_ctr + 1 < 2 ^ wFontV c := by
      rw [pv]; unfold wFontV; omega
    obtain ⟨qc, ql, qv, qh⟩ :=
      (scanRun c hgw hdvd (run c s (rowIns c j)) ph (by rw [pc]; exact hR)).2 hne hfit
    exact ⟨by rw [qc, pl], by rw [ql, pl], by rw [qv, pv], qh⟩

/-- After all `font_height` scanlines of a row group entered at `R`, the
commit transition has loaded both cell counters with `R + cellsPerRow`
(as a `wChar`-bit register) and reset the glyph counters. -/
theorem rowCommit (c : Cfg) (hgw : 1 ≤ c.font_width) (hgh : 1 ≤ c.font_height)
    (hdvd : c.font_width ∣ c.h_active)
    (s : St) (R : Nat) (hc : s.char_ctr = R) (hl : s.char_l_ctr = R)
    (hv : s.font_v_ctr = 0) (hh : s.font_h_ctr = 0) (hR : R < 2 ^ wChar c) :
    (run c s (rowIns c c.font_height)).char_ctr = (R + cellsPerRow c) % 2 ^ wChar c
    ∧ (run c s (rowIns c c.font_height)).char_l_ctr = (R + cellsPerRow c) % 2 ^ wChar c
    ∧ (run c s (rowIns c c.font_height)).font_v_ctr = 0
    ∧ (run c s (rowIns c c.font_height)).font_h_ctr = 0 := by
  have hsplit : rowIns c c.font_height = rowIns c (c.font_height - 1) ++ scanlineIns c := by
    have := rowIns_succ c (c.font_height - 1)
    rw [Nat.sub_add_cancel hgh] at this
    exact this
  obtain ⟨pc, pl, pv, ph⟩ :=
    rowStarts c hgw hdvd s R hc hl hv hh hR (c.font_height - 1) (by omega)
  rw [hsplit, run_append]
  have hlast : (run c s (rowIns c (c.font_height - 1))).font_v_ctr = c.font_height - 1 := pv
  obtain ⟨qc, ql, qv, qh⟩ :=
    (scanRun c hgw hdvd (run c s (rowIns c (c.font_height - 1))) ph
      (by rw [pc]; exact hR)).1 hlast
  exact ⟨by rw [qc, pc], by rw [ql, pc], qv, qh⟩

/-- A tiny configuration whose total cell count is a power of two: 2×2
glyphs on a 4×2 active area give 2 cells per row and a single character row,
so `char_mem.depth = 2` and the cell counters are 1 bit wide. -/
def cfgA : Cfg :=
  { h_active := 4, v_active := 2, font_width := 2, font_height := 2
    blink_cyc := 4, font_data := [], char_mem_init := [], attr_mem_init := [] }

/-- Claim C1 counterexample: in configuration `cfgA` the (only) character
row group is entered at `R = 0` from the frame-reset state and driven by the
normal-frame timing, but after its last scanline `row_start_cell_index` is
0, not `R + cells_per_row = 2`: the committed value `R + cells_per_row`
equals `char_mem.depth = 2 ^ wChar` and wraps to 0 in the 1-bit-wide
register, contradicting the claim. -/
theorem claim_c1_cex :
    cellsPerRow cfgA = 2
    ∧ charDepth cfgA = 2
    ∧ cfgA.font_height = 2
    ∧ (run cfgA st0 (rowIns cfgA cfgA.font_height)).char_l_ctr = 0
    ∧ (run cfgA st0 (rowIns cfgA cfgA.font_height)).char_l_ctr ≠ 0 + cellsPerRow cfgA := by
  decide

/-- Claim C1 (amended): for a row group entered at `row_start_cell_index =
R` (both cell counters at `R`, glyph counters 0) and driven by the timing of
a normal frame, at the start of each of the `glyph_height` scanlines the
tracker is back at `(R, R)`; during scanline `j` it presents each cell index
`R + k` (`k < cells_per_row`) to the cell buffers (at tick `k·glyph_width`
of the scanline); `row_start_cell_index` stays `R` throughout every
scanline; and only after the last scanline does it become
`R + cells_per_row`, provided that value fits in the `wChar`-bit cell
counter (which can fail only when the total cell count is a power of two
and the group is the final row, where the committed value wraps to 0, cf.
the counterexample). -/
theorem claim_c1 (c : Cfg) (s : St) (R : Nat)
    (hgw : 1 ≤ c.font_width) (hgh : 1 ≤ c.font_height)
    (hdvd : c.font_width ∣ c.h_active)
    (hc : s.char_ctr = R) (hl : s.char_l_ctr = R)
    (hv : s.font_v_ctr = 0) (hh : s.font_h_ctr = 0)
    (hRc : R + cellsPerRow c < 2 ^ wChar c) :
    (∀ j, j < c.font_height →
      ((run c s (rowIns c j)).char_ctr = R
        ∧ (run c s (rowIns c j)).char_l_ctr = R
        ∧ (run c s (rowIns c j)).font_v_ctr = j
        ∧ (run c s (rowIns c j)).font_h_ctr = 0)
      ∧ (∀ k, k < cellsPerRow c →
          (run c s (rowIns c j ++ List.replicate (k * c.font_width) activeTick)).char_ctr
            = R + k)
      ∧ (∀ q, q ≤ c.h_active →
          (run c s (rowIns c j ++ List.replicate q activeTick)).char_l_ctr = R))
    ∧ ((run c s (rowIns c c.font_height)).char_ctr = R + cellsPerRow c
      ∧ (run c s (rowIns c c.font_height)).char_l_ctr = R + cellsPerRow c
      ∧ (run c s (rowIns c c.font_height)).font_v_ctr = 0
      ∧ (run c s (rowIns c c.font_height)).font_h_ctr = 0) := by
  have hR : R < 2 ^ wChar c := by omega
  constructor
  · intro j hj
    obtain ⟨pc, pl, pv, ph⟩ := rowStarts c hgw hdvd s R hc hl hv hh hR j hj
    refine ⟨⟨pc, pl, pv, ph⟩, fun k hk => ?_, fun q _ => ?_⟩
    · rw [run_append]
      obtain ⟨rc, _, _, _⟩ :=
        pixRun c hgw (k * c.font_width) (run c s (rowIns c j)) ph (by rw [pc]; exact hR)
      rw [rc, pc, ceilD_mul k _ hgw]
      exact Nat.mod_eq_of_lt (by omega)
    · rw [run_append]
      obtain ⟨_, rl, _, _⟩ :=
        pixRun c hgw q (run c s (rowIns c j)) ph (by rw [pc]; exact hR)
      rw [rl, pl]
  · obtain ⟨qc, ql, qv, qh⟩ := rowCommit c hgw hgh hdvd s R hc hl hv hh hR
    rw [Nat.mod_eq_of_lt hRc] at qc ql
    exact ⟨qc, ql, qv, qh⟩

theorem claim_c1_wit :
    (1 ≤ cfgW.font_width ∧ 1 ≤ cfgW.font_height ∧ cfgW.font_width ∣ cfgW.h_active
      ∧ st0.char_ctr = 0 ∧ st0.char_l_ctr = 0 ∧ st0.font_v_ctr = 0 ∧ st0.font_h_ctr = 0
      ∧ 0 + cellsPerRow cfgW < 2 ^ wChar cfgW)
    ∧ ((∀ j, j < cfgW.font_height →
        ((run cfgW st0 (rowIns cfgW j)).char_ctr = 0
          ∧ (run cfgW st0 (rowIns cfgW j)).char_l_ctr = 0
          ∧ (run cfgW st0 (rowIns cfgW j)).font_v_ctr = j
          ∧ (run cfgW st0 (rowIns cfgW j)).font_h_ctr = 0)
        ∧ (∀ k, k < cellsPerRow cfgW →
            (run cfgW st0
              (rowIns cfgW j ++ List.replicate (k * cfgW.font_width) activeTick)).char_ctr
              = 0 + k)
        ∧ (∀ q, q ≤ cfgW.h_active →
            (run cfgW st0 (rowIns cfgW j ++ List.replicate q activeTick)).char_l_ctr = 0))
      ∧ ((run cfgW st0 (rowIns cfgW cfgW.font_height)).char_ctr = 0 + cellsPerRow cfgW
        ∧ (run cfgW st0 (rowIns cfgW cfgW.font_height)).char_l_ctr = 0 + cellsPerRow cfgW
        ∧ (run cfgW st0 (rowIns cfgW cfgW.font_height)).font_v_ctr = 0
        ∧ (run cfgW st0 (rowIns cfgW cfgW.font_height)).font_h_ctr = 0)) :=
  ⟨⟨by decide, by decide, by decide, rfl, rfl, rfl, rfl, by decide⟩,
    claim_c1 cfgW st0 0 (by decide) (by decide) (by decide) rfl rfl rfl rfl (by decide)⟩

theorem scanlineIns_length (c : Cfg) : (scanlineIns c).length = c.h_active + 1 := by
  simp [scanlineIns]

theorem rowIns_length (c : Cfg) (j : Nat) :
    (rowIns c j).length = j * (c.h_active + 1) := by
  induction j with
  | zero => simp [rowIns_zero]
  | succ j ih =>
    rw [rowIns_succ, List.length_append, ih, scanlineIns_length]
    ring

/-- State of the tracker at the start of scanline `t` of a normal frame
(counting from frame reset): both cell counters hold the row-start index of
row group `t / font_height` (as a `wChar`-bit value) and the scanline
counter holds `t % font_height`. -/
theorem frameLineStart (c : Cfg) (hgw : 1 ≤ c.font_width) (hgh : 1 ≤ c.font_height)
    (hdvd : c.font_width ∣ c.h_active) :
    ∀ t : Nat,
      (run c st0 (rowIns c t)).char_ctr
          = (t / c.font_height * cellsPerRow c) % 2 ^ wChar c
      ∧ (run c st0 (rowIns c t)).char_l_ctr
          = (t / c.font_height * cellsPerRow c) % 2 ^ wChar c
      ∧ (run c st0 (rowIns c t)).font_v_ctr = t % c.font_height
      ∧ (run c st0 (rowIns c t)).font_h_ctr = 0 := by
  intro t
  induction t with
  | zero => simp [rowIns_zero, run_nil, st0]
  | succ t ih =>
    obtain ⟨pc, pl, pv, ph⟩ := ih
    rw [rowIns_succ, run_append]
    have hcc : (run c st0 (rowIns c t)).char_ctr < 2 ^ wChar c := by
      rw [pc]; exact Nat.mod_lt _ (by positivity)
    by_cases hlast : t % c.font_height = c.font_height - 1
    · have hul : (run c st0 (rowIns c t)).font_v_ctr = c.font_height - 1 := by
        rw [pv]; exact hlast
      obtain ⟨qc, ql, qv, qh⟩ :=
        (scanRun c hgw hdvd (run c st0 (rowIns c t)) ph hcc).1 hul
      have hdv : c.font_height ∣ t + 1 := by
        rw [Nat.dvd_iff_mod_eq_zero, mod_succ_char t _ hgh, if_pos hlast]
      have hdiv : (t + 1) / c.font_height = t / c.font_height + 1 := by
        rw [Nat.succ_div, if_pos hdv]
      have hmod : (t + 1) % c.font_height = 0 := Nat.dvd_iff_mod_eq_zero.mp hdv
      refine ⟨?_, ?_, ?_, qh⟩
      · rw [qc, pc, Nat.mod_add_mod, hdiv]
        congr 1
        ring
      · rw [ql, pc, Nat.mod_add_mod, hdiv]
        congr 1
        ring
      · rw [qv, hmod]
    · have hune : (run c st0 (rowIns c t)).font_v_ctr ≠ c.font_height - 1 := by
        rw [pv]; exact hlast
      have hb := lt_two_pow_bitsFor (c.font_height - 1)
      have hm : t % c.font_height < c.font_height := Nat.mod_lt t (by omega)
      have hfit : (run c st0 (rowIns c t)).font_v_ctr + 1 < 2 ^ wFontV c := by
        rw [pv]; unfold wFontV; omega
      obtain ⟨qc, ql, qv, qh⟩ :=
        (scanRun c hgw hdvd (run c st0 (rowIns c t)) ph hcc).2 hune hfit
      have hndv : ¬ c.font_height ∣ t + 1 := by
        rw [Nat.dvd_iff_mod_eq_zero, mod_succ_char t _ hgh, if_neg hlast]
        omega
      have hdiv : (t + 1) / c.font_height = t / c.font_height := by
        rw [Nat.succ_div, if_neg hndv]
        omega
      have hmod : (t + 1) % c.font_height = t % c.font_height + 1 := by
        rw [mod_succ_char t _ hgh, if_neg hlast]
      refine ⟨?_, ?_, ?_, qh⟩
      · rw [qc, pl, hdiv]
      · rw [ql, pl, hdiv]
      · rw [qv, pv, hmod]

theorem take_flatten_replicate {α : Type} (L : List α) (hL : 1 ≤ L.length) :
    ∀ (N p : Nat), p ≤ N * L.length →
      (List.replicate N L).flatten.take p
        = (List.replicate (p / L.length) L).flatten ++ L.take (p % L.length) := by
  intro N
  induction N with
  | zero =>
    intro p hp
    have hp0 : p = 0 := by omega
    subst hp0
    simp
  | succ N ih =>
    intro p hp
    rw [List.replicate_succ, List.flatten_cons]
    by_cases hlt : p < L.length
    · rw [List.take_append_eq_append_take]
      have h1 : p - L.length = 0 := by omega
      rw [h1, List.take_zero, List.append_nil,
        Nat.div_eq_of_lt hlt, Nat.mod_eq_of_lt hlt]
      simp
    · push_neg at hlt
      rw [List.take_append_eq_append_take, List.take_of_length_le hlt]
      have hs : (N + 1) * L.length = N * L.length + L.length := Nat.succ_mul N _
      have hple : p - L.length ≤ N * L.length := by omega
      rw [ih (p - L.length) hple]
      have hdiv : p / L.length = (p - L.length) / L.length + 1 :=
        Nat.div_eq_sub_div (by omega) hlt
      have hmod : p % L.length = (p - L.length) % L.length := Nat.mod_eq_sub_mod hlt
      rw [hdiv, hmod, List.replicate_succ, List.flatten_cons, List.append_assoc]

/-- A tiny configuration whose total cell count is not a power of two: 2×2
glyphs on a 6×2 active area give 3 cells per row and a single character row,
so `char_mem.depth = 3` while the cell counters are 2 bits wide. -/
def cfgB : Cfg :=
  { h_active := 6, v_active := 2, font_width := 2, font_height := 2
    blink_cyc := 4, font_data := [], char_mem_init := [], attr_mem_init := [] }

/-- Claim C8 counterexample: in configuration `cfgB`, five ticks into the
normal frame (at the start of the last glyph of the first scanline) the
prefetching cell counter has already advanced to 3, which equals the total
cell count, so `cell_index < total cell count` does not hold in every
reachable state. -/
theorem claim_c8_cex :
    charDepth cfgB = 3
    ∧ (run cfgB st0 ((frameIns cfgB).take 5)).char_ctr = 3
    ∧ ¬ (run cfgB st0 ((frameIns cfgB).take 5)).char_ctr < charDepth cfgB := by
  decide

/-- Claim C8 (amended): in every state reachable from the frame-reset state
under the timing of a normal frame, `cell_index` and `row_start_cell_index`
are at most the total cell count `(active_width / glyph_width) *
(active_height / glyph_height)` — the bound is attained: the prefetching
advance drives `cell_index` (and, at the final commit,
`row_start_cell_index`) to exactly the total cell count in the last row
group whenever that value fits in the counter width (cf. the
counterexample), so the strict bound of the claim fails but the inclusive
bound holds, with no explicit wraparound logic on either counter. -/
theorem claim_c8 (c : Cfg) (hgw : 1 ≤ c.font_width) (hgh : 1 ≤ c.font_height)
    (hdw : c.font_width ∣ c.h_active) (hdh : c.font_height ∣ c.v_active) :
    ∀ p : Nat,
      (run c st0 ((frameIns c).take p)).char_ctr ≤ charDepth c
      ∧ (run c st0 ((frameIns c).take p)).char_l_ctr ≤ charDepth c := by
  intro p
  by_cases hp : p ≤ c.v_active * (c.h_active + 1)
  · have htake : (frameIns c).take p
        = rowIns c (p / (c.h_active + 1))
            ++ (scanlineIns c).take (p % (c.h_active + 1)) := by
      unfold frameIns
      rw [List.take_append_eq_append_take]
      have h0 : p - (rowIns c c.v_active).length = 0 := by
        rw [rowIns_length]; omega
      rw [h0, List.take_zero, List.append_nil]
      unfold rowIns
      rw [take_flatten_replicate (scanlineIns c)
        (by rw [scanlineIns_length]; omega) c.v_active p
        (by rw [scanlineIns_length]; exact hp)]
      rw [scanlineIns_length]
    have hrem : p % (c.h_active + 1) < c.h_active + 1 := Nat.mod_lt p (by omega)
    have hstake : (scanlineIns c).take (p % (c.h_active + 1))
        = List.replicate (p % (c.h_active + 1)) activeTick := by
      unfold scanlineIns
      rw [List.take_append_eq_append_take]
      have h1 : p % (c.h_active + 1) - (List.replicate c.h_active activeTick).length = 0 := by
        rw [List.length_replicate]; omega
      rw [h1, List.take_zero, List.append_nil, List.take_replicate]
      congr 1
      exact inf_eq_left.mpr (by omega)
    rw [htake, hstake, run_append]
    obtain ⟨pc, pl, pv, ph⟩ := frameLineStart c hgw hgh hdw (p / (c.h_active + 1))
    have hucc : (run c st0 (rowIns c (p / (c.h_active + 1)))).char_ctr < 2 ^ wChar c := by
      rw [pc]; exact Nat.mod_lt _ (by positivity)
    obtain ⟨rc, rl, _, _⟩ :=
      pixRun c hgw (p % (c.h_active + 1)) (run c st0 (rowIns c (p / (c.h_active + 1)))) ph hucc
    have hWmul : cellsPerRow c * c.font_width = c.h_active := Nat.div_mul_cancel hdw
    have hceil : ceilD (p % (c.h_active + 1)) c.font_width ≤ cellsPerRow c := by
      apply ceilD_le _ _ _ hgw
      omega
    have hX := Nat.mod_le
      (p / (c.h_active + 1) / c.font_height * cellsPerRow c) (2 ^ wChar c)
    have ht_le : p / (c.h_active + 1) ≤ c.v_active := by
      have hmono := Nat.div_le_div_right (c := c.h_active + 1) hp
      rwa [Nat.mul_div_cancel _ (by omega : 0 < c.h_active + 1)] at hmono
    have hr_le : p / (c.h_active + 1) / c.font_height ≤ numRows c :=
      Nat.div_le_div_right ht_le
    have hrmul : p / (c.h_active + 1) / c.font_height * cellsPerRow c
        ≤ numRows c * cellsPerRow c := Nat.mul_le_mul_right _ hr_le
    have hdepth : charDepth c = cellsPerRow c * numRows c := rfl
    have hcomm : numRows c * cellsPerRow c = cellsPerRow c * numRows c :=
      Nat.mul_comm _ _
    have hchar_le : (run c (run c st0 (rowIns c (p / (c.h_active + 1))))
        (List.replicate (p % (c.h_active + 1)) activeTick)).char_ctr
        ≤ p / (c.h_active + 1) / c.font_height * cellsPerRow c
          + ceilD (p % (c.h_active + 1)) c.font_width := by
      rw [rc, pc]
      have h2 := Nat.mod_le ((p / (c.h_active + 1) / c.font_height * cellsPerRow c)
        % 2 ^ wChar c + ceilD (p % (c.h_active + 1)) c.font_width) (2 ^ wChar c)
      omega
    have hl_le : (run c (run c st0 (rowIns c (p / (c.h_active + 1))))
        (List.replicate (p % (c.h_active + 1)) activeTick)).char_l_ctr ≤ charDepth c := by
      rw [rl, pl, hdepth]
      omega
    refine ⟨?_, hl_le⟩
    by_cases hq : p % (c.h_active + 1) = 0
    · have hceil0 : ceilD (p % (c.h_active + 1)) c.font_width = 0 := by
        rw [hq]; exact ceilD_zero _
      rw [hdepth]
      omega
    · -- a strict scanline position: the line index is below `v_active`
      have hvpos : 1 ≤ c.v_active := by
        by_contra hv0
        have hv0' : c.v_active = 0 := by omega
        have hzero : c.v_active * (c.h_active + 1) = 0 := by
          rw [hv0', Nat.zero_mul]
        have hp0 : p = 0 := by omega
        rw [hp0, Nat.zero_mod] at hq
        exact hq rfl
      have hnr1 : 1 ≤ numRows c := by
        have hle := Nat.le_of_dvd (by omega) hdh
        exact Nat.one_le_div_iff (by omega) |>.mpr hle
      have hdm := Nat.div_add_mod p (c.h_active + 1)
      have ht_lt : p / (c.h_active + 1) < c.v_active := by
        rcases Nat.lt_or_ge (p / (c.h_active + 1)) c.v_active with h | h
        · exact h
        · exfalso
          have hteq : p / (c.h_active + 1) = c.v_active := by omega
          rw [hteq] at hdm
          have hcomm2 : (c.h_active + 1) * c.v_active = c.v_active * (c.h_active + 1) :=
            Nat.mul_comm _ _
          omega
      have hNnr : c.font_height * numRows c = c.v_active := Nat.mul_div_cancel' hdh
      have hsucc : c.font_height * (numRows c - 1) + c.font_height
          = c.font_height * numRows c := by
        rw [← Nat.mul_succ]
        congr 1
        omega
      have hr_lt : p / (c.h_active + 1) / c.font_height ≤ numRows c - 1 := by
        have h1 : p / (c.h_active + 1) ≤ c.v_active - 1 := by omega
        have h2 : p / (c.h_active + 1) / c.font_height ≤ (c.v_active - 1) / c.font_height :=
          Nat.div_le_div_right h1
        have h3 : (c.v_active - 1) / c.font_height = numRows c - 1 := by
          have he : c.v_active - 1 = c.font_height * (numRows c - 1) + (c.font_height - 1) := by
            omega
          rw [he, Nat.mul_add_div (by omega), Nat.div_eq_of_lt (by omega)]
          omega
        omega
      have hrmul2 : p / (c.h_active + 1) / c.font_height * cellsPerRow c
          ≤ (numRows c - 1) * cellsPerRow c := Nat.mul_le_mul_right _ hr_lt
      have hnrmul : (numRows c - 1) * cellsPerRow c + cellsPerRow c
          = numRows c * cellsPerRow c := by
        rw [← Nat.succ_mul]
        congr 1
        omega
      rw [hdepth]
      omega
  · push_neg at hp
    have hflen : (frameIns c).length = c.v_active * (c.h_active + 1) + 1 := by
      unfold frameIns
      rw [List.length_append, rowIns_length]
      simp
    have htake : (frameIns c).take p = frameIns c :=
      List.take_of_length_le (by omega)
    rw [htake]
    unfold frameIns
    rw [run_append]
    have hone : run c (run c st0 (rowIns c c.v_active)) [vsyncTick]
        = step c (run c st0 (rowIns c c.v_active)) vsyncTick := rfl
    rw [hone]
    constructor <;> simp [step, vsyncTick]

theorem claim_c8_wit :
    (1 ≤ cfgW.font_width ∧ 1 ≤ cfgW.font_height
      ∧ cfgW.font_width ∣ cfgW.h_active ∧ cfgW.font_height ∣ cfgW.v_active)
    ∧ (∀ p : Nat,
        (run cfgW st0 ((frameIns cfgW).take p)).char_ctr ≤ charDepth cfgW
        ∧ (run cfgW st0 ((frameIns cfgW).take p)).char_l_ctr ≤ charDepth cfgW) :=
  ⟨⟨by decide, by decide, by decide, by decide⟩,
    claim_c8 cfgW (by decide) (by decide) (by decide) (by decide)⟩

/-- A malformed configuration: the active width 10 is not a multiple of the
glyph width 8, and the (empty) init data does not match the configured
dimensions. -/
def cfgBad : Cfg :=
  { h_active := 10, v_active := 480, font_width := 8, font_height := 16
    blink_cyc := 100, font_data := [], char_mem_init := [], attr_mem_init := [] }

/-- Claim C9 counterexample: construction of the engine on the malformed
configuration `cfgBad` does not fail with a configuration error — it
succeeds, silently flooring the active width to a single cell per row. -/
theorem claim_c9_cex :
    cfgBad.h_active % cfgBad.font_width ≠ 0
    ∧ construct cfgBad
        = Except.ok { charMemDepth := 30, attrMemDepth := 30, fontMemDepth := 4096 }
    ∧ cellsPerRow cfgBad = 1 :=
  ⟨by decide, rfl, by decide⟩

/-- A degenerate configuration with a zero glyph width: the floor
divisions of line 13 raise `ZeroDivisionError`. -/
def cfgZeroGlyph : Cfg :=
  { h_active := 640, v_active := 480, font_width := 0, font_height := 16
    blink_cyc := 4, font_data := [], char_mem_init := [], attr_mem_init := [] }

/-- A degenerate configuration whose active area is narrower than one
glyph: `char_mem.depth = 0`, so `Signal(max=char_mem.depth)` asserts. -/
def cfgZeroDepth : Cfg :=
  { h_active := 4, v_active := 480, font_width := 8, font_height := 16
    blink_cyc := 4, font_data := [], char_mem_init := [], attr_mem_init := [] }

/-- A degenerate configuration with a zero blink half-period:
`Signal(max=blink_cyc)` asserts. -/
def cfgZeroBlink : Cfg :=
  { h_active := 16, v_active := 32, font_width := 8, font_height := 16
    blink_cyc := 0, font_data := [], char_mem_init := [], attr_mem_init := [] }

/-- Claim C9 (amended): construction rejects none of the malformed
configurations the claim names — an active size that is not a multiple of
the glyph size, or init data of mismatched length, is accepted without
any error, with the grid dimensions silently floored — so no
configuration error is ever raised for them.  The only construction-time
failures are Python and Migen exceptions on degenerate configurations,
characterized completely here in source order: `ZeroDivisionError` when a
glyph dimension is zero, and the `Signal(max=...)` bound `AssertionError`
when the computed cell count is zero (active area smaller than one glyph)
or the blink half-period is zero; every other configuration constructs
successfully. -/
theorem claim_c9 (c : Cfg) :
    (c.font_width = 0 ∨ c.font_height = 0 →
      construct c = Except.error "ZeroDivisionError")
    ∧ (c.font_width ≠ 0 → c.font_height ≠ 0 → charDepth c = 0 →
      construct c = Except.error "AssertionError")
    ∧ (c.font_width ≠ 0 → c.font_height ≠ 0 → charDepth c ≠ 0 → c.blink_cyc = 0 →
      construct c = Except.error "AssertionError")
    ∧ (c.font_width ≠ 0 → c.font_height ≠ 0 → charDepth c ≠ 0 → c.blink_cyc ≠ 0 →
      construct c
        = Except.ok
            { charMemDepth := charDepth c, attrMemDepth := charDepth c
              fontMemDepth := c.font_height * 256 }) := by
  refine ⟨fun h0 => ?_, fun h1 h2 hd => ?_, fun h1 h2 hd hb => ?_, fun h1 h2 hd hb => ?_⟩
  · simp [construct, h0]
  · have hcond : ¬(c.font_width = 0 ∨ c.font_height = 0) := by tauto
    simp [construct, hcond, hd]
  · have hcond : ¬(c.font_width = 0 ∨ c.font_height = 0) := by tauto
    simp [construct, hcond, hd, hb]
  · have hcond : ¬(c.font_width = 0 ∨ c.font_height = 0) := by tauto
    simp [construct, hcond, hd, hb]

theorem claim_c9_wit :
    ((cfgZeroGlyph.font_width = 0 ∨ cfgZeroGlyph.font_height = 0)
      ∧ construct cfgZeroGlyph = Except.error "ZeroDivisionError")
    ∧ ((cfgZeroDepth.font_width ≠ 0 ∧ cfgZeroDepth.font_height ≠ 0
        ∧ charDepth cfgZeroDepth = 0)
      ∧ construct cfgZeroDepth = Except.error "AssertionError")
    ∧ ((cfgZeroBlink.font_width ≠ 0 ∧ cfgZeroBlink.font_height ≠ 0
        ∧ charDepth cfgZeroBlink ≠ 0 ∧ cfgZeroBlink.blink_cyc = 0)
      ∧ construct cfgZeroBlink = Except.error "AssertionError")
    ∧ ((cfgBad.font_width ≠ 0 ∧ cfgBad.font_height ≠ 0 ∧ charDepth cfgBad ≠ 0
        ∧ cfgBad.blink_cyc ≠ 0)
      ∧ construct cfgBad
          = Except.ok
              { charMemDepth := charDepth cfgBad, attrMemDepth := charDepth cfgBad
                fontMemDepth := cfgBad.font_height * 256 }) :=
  ⟨⟨by decide, (claim_c9 cfgZeroGlyph).1 (by decide)⟩,
    ⟨⟨by decide, by decide, by decide⟩,
      (claim_c9 cfgZeroDepth).2.1 (by decide) (by decide) (by decide)⟩,
    ⟨⟨by decide, by decide, by decide, by decide⟩,
      (claim_c9 cfgZeroBlink).2.2.1 (by decide) (by decide) (by decide) (by decide)⟩,
    ⟨⟨by decide, by decide, by decide, by decide⟩,
      (claim_c9 cfgBad).2.2.2 (by decide) (by decide) (by decide) (by decide)⟩⟩

end VGATerm
